import Mathlib

/-!
Verification of the prescription-extraction pipeline
(`src/app/actions/extract-prescription.ts`).

Strings are modelled as `List Char`.  The JavaScript regular-expression
replacement `text.replace(new RegExp("\\b" + key + "\\b", "gi"), exp)` is
modelled by a character scanner (`replAuxF`) that walks the string once,
tracking whether the previous character was a word character (that is the
information `\b` consumes), and on a whole-word case-insensitive match emits
the expansion and resumes scanning after the matched occurrence — exactly the
`lastIndex` behaviour of a global regex.  The external collaborators (Google
Vision, OpenAI, Gemini) are modelled by behaviour oracles whose constructors
correspond to the outcome classes the code distinguishes.
-/

namespace Pharmacy

/-- JS `\w` word characters: `[A-Za-z0-9_]`. -/
def isWordChar (c : Char) : Bool :=
  (48 ≤ c.toNat && c.toNat ≤ 57) || (65 ≤ c.toNat && c.toNat ≤ 90) ||
    (97 ≤ c.toNat && c.toNat ≤ 122) || c.toNat == 95

/-- JS `\s` whitespace characters (the set used by `/\s+/` and by
`String.prototype.trim`). -/
def isSpaceChar (c : Char) : Bool :=
  (9 ≤ c.toNat && c.toNat ≤ 13) || c.toNat == 32 || c.toNat == 160 ||
    c.toNat == 5760 || (8192 ≤ c.toNat && c.toNat ≤ 8202) ||
    c.toNat == 8232 || c.toNat == 8233 || c.toNat == 8239 ||
    c.toNat == 8287 || c.toNat == 12288 || c.toNat == 65279

/-- Lower-case ASCII letters (the alphabet of the map's keys). -/
def isLowerAlpha (c : Char) : Bool := 97 ≤ c.toNat && c.toNat ≤ 122

/-- `NORMALIZATION_MAP` from the source, in object-literal insertion order
(the order `Object.entries` iterates). -/
def NORMALIZATION_MAP : List (List Char × List Char) :=
  [("qhs".data, "at bedtime".data), ("od".data, "once daily".data),
   ("bid".data, "twice daily".data), ("tid".data, "three times daily".data),
   ("qid".data, "four times daily".data), ("qd".data, "once daily".data),
   ("hs".data, "at bedtime".data), ("qam".data, "every morning".data),
   ("qpm".data, "every evening".data), ("tab".data, "tablet".data),
   ("tabs".data, "tablets".data), ("cap".data, "capsule".data),
   ("caps".data, "capsules".data), ("po".data, "by mouth".data)]

/-- `ADMIN_TIMES` from the source, in definition order. -/
def ADMIN_TIMES : List (List Char) :=
  ["at bedtime".data, "in the morning".data, "in the evening".data,
   "before meals".data, "after meals".data, "every morning".data,
   "every evening".data, "once daily".data, "twice daily".data,
   "three times daily".data, "four times daily".data]

/-- Case-insensitive match of `key` (lower-case ASCII in the fixed map)
against the front of `t`; returns the remainder after the matched occurrence.
`Char.toLower` is ASCII-only, which coincides with the `i`-flag
canonicalization for the ASCII keys of the map. -/
def matchKey : List Char → List Char → Option (List Char)
  | [], t => some t
  | _ :: _, [] => none
  | k :: ks, c :: cs => if c.toLower = k then matchKey ks cs else none

/-- The `\b` after the key: the next character is a non-word character or the
end of the string. -/
def boundaryAfter : List Char → Bool
  | [] => true
  | c :: _ => !isWordChar c

/-- Fueled scanner for `text.replace(/\bkey\b/gi, exp)`.  `pw` records
whether the previous character was a word character (the information the
leading `\b` consumes: a match may start only after a non-word character or
at the start of the string). -/
def replAuxF (key exp : List Char) : Nat → Bool → List Char → List Char
  | 0, _, t => t
  | _ + 1, _, [] => []
  | f + 1, pw, c :: cs =>
    if pw then c :: replAuxF key exp f (isWordChar c) cs
    else
      match matchKey key (c :: cs) with
      | some rest =>
        if boundaryAfter rest then exp ++ replAuxF key exp f true rest
        else c :: replAuxF key exp f (isWordChar c) cs
      | none => c :: replAuxF key exp f (isWordChar c) cs

/-- One dictionary rule applied to the whole string:
`text.replace(new RegExp("\\b" + abbrev + "\\b", "gi"), full)`. -/
def replaceWord (key exp t : List Char) : List Char :=
  replAuxF key exp t.length false t

/-- The `Object.entries(NORMALIZATION_MAP).forEach` loop: rules applied
sequentially, each to the previous result. -/
def applyRules (rules : List (List Char × List Char)) (t : List Char) : List Char :=
  rules.foldl (fun acc r => replaceWord r.1 r.2 acc) t

/-- `.replace(/\s+/g, " ")`: each maximal whitespace run becomes one space. -/
def collapseWs : List Char → List Char
  | [] => []
  | [c] => if isSpaceChar c then [' '] else [c]
  | c :: d :: cs =>
    if isSpaceChar c && isSpaceChar d then collapseWs (d :: cs)
    else (if isSpaceChar c then ' ' else c) :: collapseWs (d :: cs)

/-- Leading-whitespace half of `.trim()`. -/
def trimLeft (l : List Char) : List Char := l.dropWhile isSpaceChar

/-- Trailing-whitespace half of `.trim()`. -/
def trimRight : List Char → List Char
  | [] => []
  | c :: cs =>
    if (trimRight cs).isEmpty && isSpaceChar c then [] else c :: trimRight cs

/-- JS `String.prototype.trim`. -/
def trimStr (l : List Char) : List Char := trimRight (trimLeft l)

/-- `normalizeText` from the source: expand every abbreviation of
`NORMALIZATION_MAP` in map order, then collapse whitespace runs to single
spaces and trim. -/
def normalizeText (t : List Char) : List Char :=
  trimStr (collapseWs (applyRules NORMALIZATION_MAP t))

/-- List-prefix test (used for substring containment and MIME validation). -/
def isPrefixL : List Char → List Char → Bool
  | [], _ => true
  | _ :: _, [] => false
  | p :: ps, c :: cs => p == c && isPrefixL ps cs

/-- JS `String.prototype.includes`: substring containment. -/
def containsSub : List Char → List Char → Bool
  | [], pat => pat.isEmpty
  | c :: cs, pat => isPrefixL pat (c :: cs) || containsSub cs pat

/-- `text.toLowerCase()` (ASCII; the phrases compared against are ASCII). -/
def toLowerL (l : List Char) : List Char := l.map Char.toLower

/-- `extractAdminTimes` from the source.  A JS `Set` keeps first-insertion
order and `Array.from` returns that order, so the result lists the phrases of
`ADMIN_TIMES` in definition order, first occurrence only. -/
def extractAdminTimes (text : List Char) : List (List Char) :=
  ADMIN_TIMES.foldl
    (fun found time =>
      if containsSub (toLowerL text) (toLowerL time) && !found.contains time then
        found ++ [time]
      else found)
    []

/-! ## Pipeline model

The external collaborators are modelled by behaviour oracles.  Each
constructor corresponds to one outcome class the code distinguishes; thrown
JS exceptions are `Except.error` values carrying the `Error` message. -/

/-- A thrown JS `Error`, identified by its message. -/
abbrev JsError := List Char

/-- The environment variables the module reads (`none` models unset — and for
`OCR_PROVIDER`, also the empty string, since the code tests it with `||`).
`GOOGLE_PROJECT_ID` is read but never checked, so it is omitted. -/
structure Env where
  geminiKey : Option (List Char)
  googleVisionApiKey : Option (List Char)
  openaiApiKey : Option (List Char)
  ocrProvider : Option (List Char)

/-- Outcomes of the Google Vision call.  `netErr` covers a rejected `fetch`
or a rejected `response.json()`; `httpErr` is `!response.ok` (`status` is the
decimal rendering of the status code, `body` the error text); `noAnnotations`
is a parsed body without `responses[0].textAnnotations`; `annotated` carries
`textAnnotations[0].description` (`none` models an absent field). -/
inductive VisionBehavior
  | netErr (msg : JsError)
  | httpErr (status body : List Char)
  | noAnnotations
  | annotated (description : Option (List Char))

/-- Outcomes of the OpenAI `generateText` call: it either throws (any error,
re-wrapped by the code) or returns text. -/
inductive OpenAIBehavior
  | genErr (msg : List Char)
  | text (t : List Char)

/-- The parsed JSON object a successful Gemini round trip produces.  `none`
models a JS-falsy field (absent, `null`, or empty), which the code replaces
by its default via `||`. -/
structure GeminiInfo where
  medicineName : Option (List Char)
  medicineType : Option (List Char)
  quantity : Option (List Char)
  frequency : Option (List Char)
  takingMethod : Option (List Char)
  adminTimes : Option (List (List Char))
  fullText : Option (List Char)

/-- Outcomes of the Gemini call.  `netErr` covers a rejected `fetch`, a
rejected `response.json()`, or a `candidates[0]...` access error; `httpErr`
is `!response.ok`; `parseFail` is `JSON.parse` throwing on the cleaned
payload; `parsed` is a successful parse. -/
inductive GeminiBehavior
  | netErr (msg : JsError)
  | httpErr (status body : List Char)
  | parseFail
  | parsed (info : GeminiInfo)

/-- The record `extractMedicationInfoWithGemini` resolves with. -/
structure MedicationRecord where
  medicineName : List Char
  medicineType : List Char
  quantity : List Char
  frequency : List Char
  takingMethod : List Char
  adminTimes : List (List Char)
  fullText : List Char
deriving DecidableEq

/-- The `catch` block of `extractMedicationInfoWithGemini`: the degraded
record built from basic normalization. -/
def degradedRecord (text : List Char) : MedicationRecord :=
  { medicineName := "Extraction failed".data
    medicineType := "Not specified".data
    quantity := "Not specified".data
    frequency := "Not specified".data
    takingMethod := "Not specified".data
    adminTimes := extractAdminTimes (normalizeText text)
    fullText := normalizeText text }

/-- `extractMedicationInfoWithGemini` from the source.  The credential check
precedes the `try` block, so a missing `GEMINI_KEY` throws; every failure
inside the `try` lands in the `catch` and yields the degraded record. -/
def extractMedicationInfoWithGemini (env : Env) (b : GeminiBehavior)
    (text : List Char) : Except JsError MedicationRecord :=
  match env.geminiKey with
  | none =>
    .error ("Gemini API key not configured. " ++
      "Please set GEMINI_KEY in your environment variables.").data
  | some _ =>
    match b with
    | .netErr _ => .ok (degradedRecord text)
    | .httpErr _ _ => .ok (degradedRecord text)
    | .parseFail => .ok (degradedRecord text)
    | .parsed info =>
      .ok { medicineName := info.medicineName.getD "Not specified".data
            medicineType := info.medicineType.getD "Not specified".data
            quantity := info.quantity.getD "Not specified".data
            frequency := info.frequency.getD "Not specified".data
            takingMethod := info.takingMethod.getD "Not specified".data
            adminTimes := info.adminTimes.getD []
            fullText := info.fullText.getD (normalizeText text) }

/-- `extractTextWithGoogleVision` from the source. -/
def extractTextWithGoogleVision (env : Env) (b : VisionBehavior)
    (_base64 _mimeType : List Char) : Except JsError (List Char) :=
  match env.googleVisionApiKey with
  | none =>
    .error ("Google Vision API key not configured. " ++
      "Please set GOOGLE_VISION_API_KEY in your environment variables.").data
  | some _ =>
    match b with
    | .netErr m => .error m
    | .httpErr status body =>
      .error ("Google Vision API error: ".data ++ status ++ " ".data ++ body)
    | .noAnnotations => .error "No text found in the image".data
    | .annotated description => .ok (description.getD [])

/-- `extractTextWithOpenAI` from the source. -/
def extractTextWithOpenAI (env : Env) (b : OpenAIBehavior)
    (_base64 _mimeType : List Char) : Except JsError (List Char) :=
  match env.openaiApiKey with
  | none =>
    .error ("OpenAI API key not configured. " ++
      "Please set OPENAI_API_KEY in your environment variables.").data
  | some _ =>
    match b with
    | .genErr m => .error ("OpenAI API error: ".data ++ m)
    | .text t => .ok t

/-- Which external collaborators a pipeline run invoked, in order. -/
inductive ExtCall
  | vision
  | openai
  | gemini
deriving DecidableEq

/-- One fixed behaviour per external collaborator (each is called at most
once per run). -/
structure Behaviors where
  vision : VisionBehavior
  openai : OpenAIBehavior
  gemini : GeminiBehavior

/-- The uploaded file after the base64 conversion. -/
structure FileData where
  type : List Char
  base64 : List Char

/-- The five scalar fields of the `medicationInfo` object in the response. -/
structure MedInfoOut where
  medicineName : List Char
  medicineType : List Char
  quantity : List Char
  frequency : List Char
  takingMethod : List Char
deriving DecidableEq

/-- The `data` payload of a successful pipeline run. -/
structure ExtractionData where
  rawText : List Char
  normalizedText : List Char
  adminTimes : List (List Char)
  medicationInfo : MedInfoOut
deriving DecidableEq

/-- A pipeline response: `{data: ...}` or `{error: ...}`. -/
inductive PResult
  | data (d : ExtractionData)
  | error (msg : List Char)
deriving DecidableEq

/-- `process.env.OCR_PROVIDER || (googleApiKey ? "google" : "openai")`. -/
def resolvedProvider (env : Env) : List Char :=
  env.ocrProvider.getD
    (if env.googleVisionApiKey.isSome then "google".data else "openai".data)

/-- The OCR `try`/`catch` block of `extractPrescription`: primary variant,
one fallback to the other variant, and on double failure a single aggregated
error naming the primary variant's message (`ocrError`, not
`fallbackError`).  Also returns the trace of collaborator invocations. -/
def ocrStep (env : Env) (bh : Behaviors) (base64 mime : List Char) :
    Except JsError (List Char) × List ExtCall :=
  if resolvedProvider env = "google".data then
    match extractTextWithGoogleVision env bh.vision base64 mime with
    | .ok t => (.ok t, [.vision])
    | .error e1 =>
      match extractTextWithOpenAI env bh.openai base64 mime with
      | .ok t => (.ok t, [.vision, .openai])
      | .error _ =>
        (.error (("OCR extraction failed. Please check your API keys " ++
          "and try again. Error: ").data ++ e1), [.vision, .openai])
  else
    match extractTextWithOpenAI env bh.openai base64 mime with
    | .ok t => (.ok t, [.openai])
    | .error e1 =>
      match extractTextWithGoogleVision env bh.vision base64 mime with
      | .ok t => (.ok t, [.openai, .vision])
      | .error _ =>
        (.error (("OCR extraction failed. Please check your API keys " ++
          "and try again. Error: ").data ++ e1), [.openai, .vision])

/-- The body of `extractPrescription` inside the outermost `try`: an
`Except.error` is an exception that reaches the outermost `catch`. -/
def extractPrescriptionBody (env : Env) (bh : Behaviors)
    (file? : Option FileData) : Except JsError PResult × List ExtCall :=
  match file? with
  | none => (.ok (.error "No file provided".data), [])
  | some file =>
    if !(isPrefixL "image/".data file.type) then
      (.ok (.error "Please upload a valid image file (PNG, JPG, JPEG)".data), [])
    else
      match ocrStep env bh file.base64 file.type with
      | (.error msg, tr) => (.ok (.error msg), tr)
      | (.ok rawText, tr) =>
        if (trimStr rawText).isEmpty then
          (.ok (.error ("No text could be extracted from the image. " ++
            "Please ensure the image contains readable text.").data), tr)
        else
          match extractMedicationInfoWithGemini env bh.gemini rawText with
          | .error e => (.error e, tr ++ [.gemini])
          | .ok info =>
            (.ok (.data
              { rawText := trimStr rawText
                normalizedText := info.fullText
                adminTimes := info.adminTimes
                medicationInfo :=
                  { medicineName := info.medicineName
                    medicineType := info.medicineType
                    quantity := info.quantity
                    frequency := info.frequency
                    takingMethod := info.takingMethod } }), tr ++ [.gemini])

/-- `extractPrescription` from the source: the outermost `catch` converts any
exception escaping the body into the generic retry-suggesting message. -/
def extractPrescription (env : Env) (bh : Behaviors)
    (file? : Option FileData) : PResult × List ExtCall :=
  match extractPrescriptionBody env bh file? with
  | (.ok r, tr) => (r, tr)
  | (.error _, tr) =>
    (.error ("An unexpected error occurred while processing the image. " ++
      "Please try again.").data, tr)

/-- The Gemini outcomes the `catch` block of the source handles (everything
except a successful parse). -/
def GeminiBehavior.isFailure : GeminiBehavior → Bool
  | .parsed _ => false
  | _ => true

instance {ε α : Type} [DecidableEq ε] [DecidableEq α] :
    DecidableEq (Except ε α) := fun a b =>
  match a, b with
  | .ok x, .ok y =>
    if h : x = y then isTrue (by rw [h]) else isFalse (by simp [h])
  | .error x, .error y =>
    if h : x = y then isTrue (by rw [h]) else isFalse (by simp [h])
  | .ok _, .error _ => isFalse (by simp)
  | .error _, .ok _ => isFalse (by simp)

/-! ## Proof-side definitions -/

/-- Maximal runs of word characters, fueled (fuel bounds the length). -/
def wordRunsF : Nat → List Char → List (List Char)
  | 0, _ => []
  | _ + 1, [] => []
  | f + 1, c :: cs =>
    if isWordChar c then
      (c :: cs.takeWhile isWordChar) :: wordRunsF f (cs.dropWhile isWordChar)
    else wordRunsF f cs

/-- The maximal word-character runs of a string. -/
def wordRuns (l : List Char) : List (List Char) := wordRunsF l.length l

/-- The runs of a string, lowered; whole-word case-insensitive occurrence of
a key is membership of the key here. -/
def lowerRuns (l : List Char) : List (List Char) := (wordRuns l).map toLowerL

/-- `replAuxF` with canonical fuel (the length of the remaining text). -/
def replRun (key exp : List Char) (pw : Bool) (t : List Char) : List Char :=
  replAuxF key exp t.length pw t

/-- No two adjacent whitespace characters. -/
def noDoubleSpace : List Char → Bool
  | [] => true
  | [_] => true
  | c :: d :: cs => !(isSpaceChar c && isSpaceChar d) && noDoubleSpace (d :: cs)

/-- Every whitespace character is a plain space. -/
def spacesBlank (l : List Char) : Bool :=
  l.all fun c => !isSpaceChar c || c == ' '

/-! ## Word runs: theorems

The abstraction used to reason about whole-word matching: a whole-word
case-insensitive occurrence of a key made of word characters is exactly a
maximal word-character run whose lowering equals the key. -/

theorem space_not_word {c : Char} (h : isSpaceChar c = true) :
    isWordChar c = false := by
  rw [Bool.eq_false_iff]
  intro hw
  simp only [isSpaceChar, Bool.or_eq_true, Bool.and_eq_true, decide_eq_true_eq,
    beq_iff_eq] at h
  simp only [isWordChar, Bool.or_eq_true, Bool.and_eq_true, decide_eq_true_eq,
    beq_iff_eq] at hw
  omega

theorem word_not_space {c : Char} (h : isWordChar c = true) :
    isSpaceChar c = false := by
  rw [Bool.eq_false_iff]
  intro hs
  simp only [isWordChar, Bool.or_eq_true, Bool.and_eq_true, decide_eq_true_eq,
    beq_iff_eq] at h
  simp only [isSpaceChar, Bool.or_eq_true, Bool.and_eq_true, decide_eq_true_eq,
    beq_iff_eq] at hs
  omega

theorem lowerAlpha_word {c : Char} (h : isLowerAlpha c = true) :
    isWordChar c = true := by
  simp only [isLowerAlpha, Bool.and_eq_true, decide_eq_true_eq] at h
  simp only [isWordChar, Bool.or_eq_true, Bool.and_eq_true, decide_eq_true_eq]
  omega

/-- A character whose ASCII lowering is a lower-case letter is a word
character (it is that letter or its upper-case form). -/
theorem word_of_toLower {c d : Char} (h : c.toLower = d)
    (hd : isLowerAlpha d = true) : isWordChar c = true := by
  simp only [isLowerAlpha, Bool.and_eq_true, decide_eq_true_eq] at hd
  unfold Char.toLower at h
  by_cases hc : 65 ≤ c.toNat ∧ c.toNat ≤ 90
  · simp only [isWordChar, Bool.or_eq_true, Bool.and_eq_true, decide_eq_true_eq]
    omega
  · rw [if_neg hc] at h
    subst h
    simp only [isWordChar, Bool.or_eq_true, Bool.and_eq_true, decide_eq_true_eq]
    omega

theorem wordRunsF_congr : ∀ f g l, l.length ≤ f → l.length ≤ g →
    wordRunsF f l = wordRunsF g l := by
  intro f
  induction f with
  | zero =>
    intro g l hf _
    have : l = [] := List.length_eq_zero.mp (Nat.le_zero.mp hf)
    subst this
    cases g <;> rfl
  | succ f ih =>
    intro g l hf hg
    cases l with
    | nil => cases g <;> rfl
    | cons c cs =>
      cases g with
      | zero => exact absurd hg (by simp)
      | succ g =>
        simp only [List.length_cons, Nat.add_le_add_iff_right] at hf hg
        simp only [wordRunsF]
        by_cases hc : isWordChar c
        · have hd : (cs.dropWhile isWordChar).length ≤ cs.length :=
            (List.dropWhile_sublist _).length_le
          simp [hc, ih g (cs.dropWhile isWordChar) (le_trans hd hf) (le_trans hd hg)]
        · simp [hc, ih g cs hf hg]

theorem wordRuns_nil : wordRuns [] = [] := rfl

theorem wordRuns_cons_not {c : Char} (h : isWordChar c = false) (cs : List Char) :
    wordRuns (c :: cs) = wordRuns cs := by
  show wordRunsF (cs.length + 1) (c :: cs) = wordRuns cs
  simp only [wordRunsF, h]
  rfl

theorem wordRuns_cons_word {c : Char} (h : isWordChar c = true) (cs : List Char) :
    wordRuns (c :: cs) =
      (c :: cs.takeWhile isWordChar) :: wordRuns (cs.dropWhile isWordChar) := by
  show wordRunsF (cs.length + 1) (c :: cs) = _
  simp only [wordRunsF, h, if_pos]
  have hd : (cs.dropWhile isWordChar).length ≤ cs.length :=
    (List.dropWhile_sublist _).length_le
  rw [wordRunsF_congr cs.length (cs.dropWhile isWordChar).length _ hd le_rfl]
  rfl

theorem wordRuns_all_not {l : List Char} (h : ∀ c ∈ l, isWordChar c = false) :
    wordRuns l = [] := by
  induction l with
  | nil => rfl
  | cons c cs ih =>
    rw [wordRuns_cons_not (h c (List.mem_cons_self ..)) cs]
    exact ih fun x hx => h x (List.mem_cons_of_mem _ hx)

theorem wordRuns_all_word {l : List Char} (h : ∀ c ∈ l, isWordChar c = true)
    (hne : l ≠ []) : wordRuns l = [l] := by
  cases l with
  | nil => exact absurd rfl hne
  | cons c cs =>
    rw [wordRuns_cons_word (h c (List.mem_cons_self ..)) cs]
    have ht : cs.takeWhile isWordChar = cs :=
      List.takeWhile_eq_self_iff.mpr fun x hx => h x (List.mem_cons_of_mem _ hx)
    have hd : cs.dropWhile isWordChar = [] :=
      List.dropWhile_eq_nil_iff.mpr fun x hx => h x (List.mem_cons_of_mem _ hx)
    rw [ht, hd, wordRuns_nil]

theorem takeWhile_append_sep {p : Char → Bool} {r : Char} (hr : p r = false) :
    ∀ (a b : List Char), (a ++ r :: b).takeWhile p = a.takeWhile p := by
  intro a b
  induction a with
  | nil => simp [List.takeWhile_cons, hr]
  | cons c a ih =>
    by_cases hc : p c
    · simp [List.takeWhile_cons, hc, ih]
    · simp [List.takeWhile_cons, hc]

theorem dropWhile_append_sep {p : Char → Bool} {r : Char} (hr : p r = false) :
    ∀ (a b : List Char), (a ++ r :: b).dropWhile p = a.dropWhile p ++ r :: b := by
  intro a b
  induction a with
  | nil => simp [List.dropWhile_cons, hr]
  | cons c a ih =>
    by_cases hc : p c
    · simp [List.dropWhile_cons, hc, ih]
    · simp [List.dropWhile_cons, hc]

/-- Runs split at a separating non-word character. -/
theorem wordRuns_append_sep {r : Char} (hr : isWordChar r = false) :
    ∀ (a b : List Char), wordRuns (a ++ r :: b) = wordRuns a ++ wordRuns b := by
  have main : ∀ n (a : List Char), a.length ≤ n → ∀ b,
      wordRuns (a ++ r :: b) = wordRuns a ++ wordRuns b := by
    intro n
    induction n with
    | zero =>
      intro a ha b
      have : a = [] := List.length_eq_zero.mp (Nat.le_zero.mp ha)
      subst this
      simp [wordRuns_cons_not hr, wordRuns_nil]
    | succ n ih =>
      intro a ha b
      cases a with
      | nil => simp [wordRuns_cons_not hr, wordRuns_nil]
      | cons c a' =>
        simp only [List.length_cons, Nat.add_le_add_iff_right] at ha
        by_cases hc : isWordChar c
        · rw [List.cons_append, wordRuns_cons_word hc, wordRuns_cons_word hc,
            takeWhile_append_sep hr, dropWhile_append_sep hr,
            ih _ (le_trans (List.dropWhile_sublist _).length_le ha)]
          simp
        · rw [List.cons_append, wordRuns_cons_not (Bool.eq_false_iff.mpr hc),
            wordRuns_cons_not (Bool.eq_false_iff.mpr hc), ih _ ha]
  exact fun a b => main a.length a le_rfl b

theorem wordRuns_dropWhile_space (l : List Char) :
    wordRuns (l.dropWhile isSpaceChar) = wordRuns l := by
  induction l with
  | nil => rfl
  | cons c cs ih =>
    by_cases hc : isSpaceChar c
    · rw [List.dropWhile_cons_of_pos hc, ih, wordRuns_cons_not (space_not_word hc)]
    · rw [List.dropWhile_cons_of_neg hc]

theorem wordRuns_append_spaces {s : List Char}
    (hs : ∀ c ∈ s, isSpaceChar c = true) (a : List Char) :
    wordRuns (a ++ s) = wordRuns a := by
  cases s with
  | nil => simp
  | cons r s' =>
    rw [wordRuns_append_sep (space_not_word (hs r (List.mem_cons_self ..))),
      wordRuns_all_not fun c hc => space_not_word (hs c (List.mem_cons_of_mem _ hc))]
    simp

/-! ## Scanner step equations -/

theorem matchKey_length : ∀ (k t rest : List Char), matchKey k t = some rest →
    t.length = k.length + rest.length := by
  intro k
  induction k with
  | nil =>
    intro t rest h
    simp only [matchKey, Option.some_inj] at h
    simp [h]
  | cons kc ks ih =>
    intro t rest h
    cases t with
    | nil => exact absurd h (by simp [matchKey])
    | cons c cs =>
      simp only [matchKey] at h
      split at h
      · have := ih cs rest h
        simp [this]
        omega
      · exact absurd h (by simp)

theorem matchKey_decomp : ∀ (k t rest : List Char), matchKey k t = some rest →
    ∃ p, t = p ++ rest ∧ p.map Char.toLower = k := by
  intro k
  induction k with
  | nil =>
    intro t rest h
    simp only [matchKey, Option.some_inj] at h
    exact ⟨[], by simp [h]⟩
  | cons kc ks ih =>
    intro t rest h
    cases t with
    | nil => exact absurd h (by simp [matchKey])
    | cons c cs =>
      simp only [matchKey] at h
      split at h
      · obtain ⟨p, hp, hm⟩ := ih cs rest h
        rename_i hc
        exact ⟨c :: p, by simp [hp], by simp [hm, hc]⟩
      · exact absurd h (by simp)

theorem matchKey_of_map : ∀ (p rest : List Char),
    matchKey (p.map Char.toLower) (p ++ rest) = some rest := by
  intro p rest
  induction p with
  | nil => rfl
  | cons c ps ih => simp [matchKey, ih]

theorem replaceWord_eq (key exp t : List Char) :
    replaceWord key exp t = replRun key exp false t := rfl

theorem replAuxF_congr (key exp : List Char) (hk : key ≠ []) :
    ∀ f g pw t, t.length ≤ f → t.length ≤ g →
      replAuxF key exp f pw t = replAuxF key exp g pw t := by
  intro f
  induction f with
  | zero =>
    intro g pw t hf _
    have : t = [] := List.length_eq_zero.mp (Nat.le_zero.mp hf)
    subst this
    cases g <;> rfl
  | succ f ih =>
    intro g pw t hf hg
    cases t with
    | nil => cases g <;> rfl
    | cons c cs =>
      cases g with
      | zero => exact absurd hg (by simp)
      | succ g =>
        simp only [List.length_cons, Nat.add_le_add_iff_right] at hf hg
        simp only [replAuxF]
        by_cases hpw : pw
        · simp [hpw, ih g (isWordChar c) cs hf hg]
        · simp only [hpw, if_false, Bool.false_eq_true]
          cases hm : matchKey key (c :: cs) with
          | none => simp [ih g (isWordChar c) cs hf hg]
          | some rest =>
            have hlen : rest.length ≤ cs.length := by
              have := matchKey_length key (c :: cs) rest hm
              have : 1 ≤ key.length := List.length_pos.mpr hk
              simp only [List.length_cons] at *
              omega
            by_cases hb : boundaryAfter rest
            · simp [hb, ih g true rest (le_trans hlen hf) (le_trans hlen hg)]
            · simp [hb, ih g (isWordChar c) cs hf hg]

theorem replRun_nil (key exp : List Char) (pw : Bool) :
    replRun key exp pw [] = [] := rfl

theorem replRun_cons_pw (key exp : List Char) (c : Char) (cs : List Char) :
    replRun key exp true (c :: cs) = c :: replRun key exp (isWordChar c) cs := by
  show replAuxF key exp (cs.length + 1) true (c :: cs) = _
  simp [replAuxF]
  rfl

theorem replRun_nomatch {key : List Char} (exp : List Char) {c : Char}
    {cs : List Char} (hm : matchKey key (c :: cs) = none) :
    replRun key exp false (c :: cs) = c :: replRun key exp (isWordChar c) cs := by
  show replAuxF key exp (cs.length + 1) false (c :: cs) = _
  simp [replAuxF, hm]
  rfl

theorem replRun_nobound {key : List Char} (exp : List Char) {c : Char}
    {cs rest : List Char} (hm : matchKey key (c :: cs) = some rest)
    (hb : boundaryAfter rest = false) :
    replRun key exp false (c :: cs) = c :: replRun key exp (isWordChar c) cs := by
  show replAuxF key exp (cs.length + 1) false (c :: cs) = _
  simp [replAuxF, hm, hb]
  rfl

theorem replRun_match {key : List Char} (exp : List Char) (hk : key ≠ [])
    {c : Char} {cs rest : List Char} (hm : matchKey key (c :: cs) = some rest)
    (hb : boundaryAfter rest = true) :
    replRun key exp false (c :: cs) = exp ++ replRun key exp true rest := by
  show replAuxF key exp (cs.length + 1) false (c :: cs) = _
  simp only [replAuxF, hm, hb, Bool.false_eq_true, if_false, if_true]
  have hlen : rest.length ≤ cs.length := by
    have := matchKey_length key (c :: cs) rest hm
    have : 1 ≤ key.length := List.length_pos.mpr hk
    simp only [List.length_cons] at *
    omega
  rw [replAuxF_congr key exp hk cs.length rest.length true rest hlen le_rfl]
  rfl

/-- With a word character just before the scan position, the scanner copies
an all-word-character prefix verbatim. -/
theorem replRun_word_seg (key exp : List Char) :
    ∀ (w rest : List Char), (∀ x ∈ w, isWordChar x = true) →
      replRun key exp true (w ++ rest) = w ++ replRun key exp true rest := by
  intro w
  induction w with
  | nil => simp
  | cons x w' ih =>
    intro rest hw
    rw [List.cons_append, replRun_cons_pw, hw x (List.mem_cons_self ..),
      ih rest fun y hy => hw y (List.mem_cons_of_mem _ hy)]
    simp

/-! ## The three core facts about one replacement pass -/

/-- Every string splits as an all-word prefix followed by nothing or a
non-word character. -/
theorem word_split (cs : List Char) :
    ∃ w rest, cs = w ++ rest ∧ (∀ x ∈ w, isWordChar x = true) ∧
      (rest = [] ∨ ∃ r0 rs, rest = r0 :: rs ∧ isWordChar r0 = false) := by
  refine ⟨cs.takeWhile isWordChar, cs.dropWhile isWordChar,
    (List.takeWhile_append_dropWhile ..).symm,
    fun x hx => List.mem_takeWhile_imp hx, ?_⟩
  cases hd : cs.dropWhile isWordChar with
  | nil => exact Or.inl rfl
  | cons r0 rs =>
    refine Or.inr ⟨r0, rs, rfl, ?_⟩
    have h := List.head_dropWhile_not isWordChar cs (by simp [hd])
    simpa [hd] using h

theorem runs_word_block {c : Char} (hc : isWordChar c = true) {w : List Char}
    (hw : ∀ x ∈ w, isWordChar x = true) {r0 : Char} (hr0 : isWordChar r0 = false)
    (z : List Char) : wordRuns (c :: (w ++ r0 :: z)) = (c :: w) :: wordRuns z := by
  have hword : ∀ x ∈ (c :: w), isWordChar x = true := by
    intro x hx
    rcases List.mem_cons.mp hx with h | h
    · exact h ▸ hc
    · exact hw x h
  have he : c :: (w ++ r0 :: z) = (c :: w) ++ r0 :: z := rfl
  rw [he, wordRuns_append_sep hr0, wordRuns_all_word hword (by simp)]
  simp

theorem runs_word_all {c : Char} (hc : isWordChar c = true) {w : List Char}
    (hw : ∀ x ∈ w, isWordChar x = true) : wordRuns (c :: w) = [c :: w] := by
  refine wordRuns_all_word ?_ (by simp)
  intro x hx
  rcases List.mem_cons.mp hx with h | h
  · exact h ▸ hc
  · exact hw x h

/-- Containment: one replacement pass only produces runs of the input or
runs of the expansion. -/
theorem replRun_runs_subset {key exp : List Char} (hk : key ≠ []) :
    ∀ (t : List Char), ∀ r ∈ wordRuns (replRun key exp false t),
      r ∈ wordRuns t ∨ r ∈ wordRuns exp := by
  have main : ∀ n (t : List Char), t.length ≤ n →
      ∀ r ∈ wordRuns (replRun key exp false t),
        r ∈ wordRuns t ∨ r ∈ wordRuns exp := by
    intro n
    induction n with
    | zero =>
      intro t ht r hr
      have : t = [] := List.length_eq_zero.mp (Nat.le_zero.mp ht)
      subst this
      simp [replRun_nil, wordRuns_nil] at hr
    | succ n ih =>
      intro t ht r hr
      cases t with
      | nil => simp [replRun_nil, wordRuns_nil] at hr
      | cons c cs =>
        simp only [List.length_cons, Nat.add_le_add_iff_right] at ht
        -- the no-match (copy) continuation, shared by three branches
        have copy : replRun key exp false (c :: cs) =
            c :: replRun key exp (isWordChar c) cs →
            (r ∈ wordRuns (c :: cs) ∨ r ∈ wordRuns exp) := by
          intro heq
          rw [heq] at hr
          by_cases hc : isWordChar c
          · obtain ⟨w, rest', hcs, hw, hrest⟩ := word_split cs
            rw [hc] at hr
            rw [hcs] at hr ⊢
            rw [replRun_word_seg key exp w rest' hw] at hr
            rcases hrest with hnil | ⟨r0, rs, hrr, hr0⟩
            · subst hnil
              rw [replRun_nil, List.append_nil] at hr
              simp only [List.append_nil]
              exact Or.inl hr
            · subst hrr
              rw [replRun_cons_pw, hr0] at hr
              rw [runs_word_block hc hw hr0] at hr
              rw [runs_word_block hc hw hr0]
              rcases List.mem_cons.mp hr with h1 | h2
              · exact Or.inl (List.mem_cons.mpr (Or.inl h1))
              · have hrs : rs.length ≤ n := by
                  have : cs.length = w.length + (rs.length + 1) := by
                    rw [hcs]; simp
                  omega
                rcases ih rs hrs r h2 with h3 | h4
                · exact Or.inl (List.mem_cons.mpr (Or.inr h3))
                · exact Or.inr h4
          · have hc' : isWordChar c = false := by simpa using hc
            rw [hc'] at hr
            rw [wordRuns_cons_not hc'] at hr
            rw [wordRuns_cons_not hc']
            exact ih cs ht r hr
        cases hm : matchKey key (c :: cs) with
        | none => exact copy (replRun_nomatch exp hm)
        | some rest =>
          by_cases hb : boundaryAfter rest
          · rw [replRun_match exp hk hm hb] at hr
            obtain ⟨p, hp, hpm⟩ := matchKey_decomp key (c :: cs) rest hm
            cases rest with
            | nil =>
              rw [replRun_nil, List.append_nil] at hr
              exact Or.inr hr
            | cons r0 rs =>
              have hr0 : isWordChar r0 = false := by
                simpa [boundaryAfter] using hb
              rw [replRun_cons_pw, hr0] at hr
              rw [wordRuns_append_sep hr0] at hr
              rcases List.mem_append.mp hr with h1 | h2
              · exact Or.inr h1
              · have hrs : rs.length ≤ n := by
                  have h1 := matchKey_length key (c :: cs) (r0 :: rs) hm
                  have h2 : 1 ≤ key.length := List.length_pos.mpr hk
                  simp only [List.length_cons] at h1
                  omega
                rcases ih rs hrs r h2 with h3 | h4
                · refine Or.inl ?_
                  rw [hp, wordRuns_append_sep hr0]
                  exact List.mem_append.mpr (Or.inr h3)
                · exact Or.inr h4
          · have hb' : boundaryAfter rest = false := by simpa using hb
            exact copy (replRun_nobound exp hm hb')
  exact fun t => main t.length t le_rfl

/-- Elimination: after its own pass, a key no longer occurs as a whole word
(provided the expansion does not contain it as a whole word). -/
theorem replRun_elim {key exp : List Char} (hk : key ≠ [])
    (hexp : key ∉ lowerRuns exp) :
    ∀ t, key ∉ lowerRuns (replRun key exp false t) := by
  have main : ∀ n (t : List Char), t.length ≤ n →
      key ∉ lowerRuns (replRun key exp false t) := by
    intro n
    induction n with
    | zero =>
      intro t ht
      have : t = [] := List.length_eq_zero.mp (Nat.le_zero.mp ht)
      subst this
      simp [replRun_nil, lowerRuns, wordRuns_nil]
    | succ n ih =>
      intro t ht
      cases t with
      | nil => simp [replRun_nil, lowerRuns, wordRuns_nil]
      | cons c cs =>
        simp only [List.length_cons, Nat.add_le_add_iff_right] at ht
        have copy : (matchKey key (c :: cs) = none ∨
            ∃ rest, matchKey key (c :: cs) = some rest ∧
              boundaryAfter rest = false) →
            replRun key exp false (c :: cs) =
              c :: replRun key exp (isWordChar c) cs →
            key ∉ lowerRuns (c :: replRun key exp (isWordChar c) cs) := by
          intro hnm _
          by_cases hc : isWordChar c
          · obtain ⟨w, rest', hcs, hw, hrest⟩ := word_split cs
            rw [hc, hcs, replRun_word_seg key exp w rest' hw]
            have hnkey : toLowerL (c :: w) ≠ key := by
              intro hkey
              have hmm : matchKey key ((c :: w) ++ rest') = some rest' := by
                rw [← hkey]
                exact matchKey_of_map (c :: w) rest'
              have hbb : boundaryAfter rest' = true := by
                rcases hrest with hnil | ⟨r0, rs, hrr, hr0⟩
                · subst hnil; rfl
                · subst hrr; simp [boundaryAfter, hr0]
              have hcc : (c :: w) ++ rest' = c :: cs := by rw [hcs]; rfl
              rw [hcc] at hmm
              rcases hnm with h1 | ⟨rest, h2, h3⟩
              · rw [h1] at hmm; exact absurd hmm (by simp)
              · rw [h2] at hmm
                rw [Option.some_inj.mp hmm] at h3
                rw [hbb] at h3
                exact absurd h3 (by simp)
            rcases hrest with hnil | ⟨r0, rs, hrr, hr0⟩
            · subst hnil
              rw [replRun_nil, List.append_nil]
              simp only [lowerRuns, runs_word_all hc hw, List.map_cons,
                List.map_nil, List.mem_singleton]
              exact fun h => hnkey h.symm
            · subst hrr
              rw [replRun_cons_pw, hr0]
              simp only [lowerRuns, runs_word_block hc hw hr0, List.map_cons,
                List.mem_cons]
              intro hmem
              rcases hmem with h1 | h2
              · exact hnkey h1.symm
              · have hrs : rs.length ≤ n := by
                  have : cs.length = w.length + (rs.length + 1) := by
                    rw [hcs]; simp
                  omega
                exact ih rs hrs (by simpa [lowerRuns] using h2)
          · have hc' : isWordChar c = false := by simpa using hc
            rw [hc']
            simp only [lowerRuns, wordRuns_cons_not hc']
            exact fun h => ih cs ht (by simpa [lowerRuns] using h)
        cases hm : matchKey key (c :: cs) with
        | none =>
          rw [replRun_nomatch exp hm]
          exact copy (Or.inl hm) (replRun_nomatch exp hm)
        | some rest =>
          by_cases hb : boundaryAfter rest
          · rw [replRun_match exp hk hm hb]
            cases rest with
            | nil =>
              rw [replRun_nil, List.append_nil]
              exact hexp
            | cons r0 rs =>
              have hr0 : isWordChar r0 = false := by
                simpa [boundaryAfter] using hb
              rw [replRun_cons_pw, hr0]
              simp only [lowerRuns, wordRuns_append_sep hr0, List.map_append,
                List.mem_append]
              intro hmem
              rcases hmem with h1 | h2
              · exact hexp (by simpa [lowerRuns] using h1)
              · have hrs : rs.length ≤ n := by
                  have h3 := matchKey_length key (c :: cs) (r0 :: rs) hm
                  have h4 : 1 ≤ key.length := List.length_pos.mpr hk
                  simp only [List.length_cons] at h3
                  omega
                exact ih rs hrs (by simpa [lowerRuns] using h2)
          · have hb' : boundaryAfter rest = false := by simpa using hb
            rw [replRun_nobound exp hm hb']
            exact copy (Or.inr ⟨rest, hm, hb'⟩) (replRun_nobound exp hm hb')
  exact fun t => main t.length t le_rfl

/-- Identity: on a string with no whole-word occurrence of the key, a
replacement pass changes nothing. -/
theorem replRun_id {key : List Char} (exp : List Char) (hk : key ≠ [])
    (hkey : ∀ x ∈ key, isLowerAlpha x = true) :
    ∀ t, key ∉ lowerRuns t → replRun key exp false t = t := by
  have main : ∀ n (t : List Char), t.length ≤ n → key ∉ lowerRuns t →
      replRun key exp false t = t := by
    intro n
    induction n with
    | zero =>
      intro t ht _
      have : t = [] := List.length_eq_zero.mp (Nat.le_zero.mp ht)
      subst this
      rfl
    | succ n ih =>
      intro t ht hocc
      cases t with
      | nil => rfl
      | cons c cs =>
        simp only [List.length_cons, Nat.add_le_add_iff_right] at ht
        -- a boundary-fitting match would put `key` among the lowered runs
        have no_fit : ∀ rest, matchKey key (c :: cs) = some rest →
            boundaryAfter rest = true → False := by
          intro rest hm hb
          obtain ⟨p, hp, hpm⟩ := matchKey_decomp key (c :: cs) rest hm
          have hpne : p ≠ [] := by
            intro hnil
            rw [hnil] at hpm
            exact hk (by simpa using hpm.symm)
          have hpw : ∀ x ∈ p, isWordChar x = true := by
            intro x hx
            have : x.toLower ∈ key := hpm ▸ List.mem_map_of_mem _ hx
            exact word_of_toLower rfl (hkey _ this)
          apply hocc
          have hpl : toLowerL p = key := hpm
          cases p with
          | nil => exact absurd rfl hpne
          | cons pc pw =>
            have hpc : isWordChar pc = true := hpw pc (List.mem_cons_self ..)
            have hpw' : ∀ x ∈ pw, isWordChar x = true :=
              fun x hx => hpw x (List.mem_cons_of_mem _ hx)
            rcases hrest : rest with hnil | ⟨r0, rs⟩
            · rw [hrest] at hp
              rw [hp, List.append_nil]
              simp only [lowerRuns, runs_word_all hpc hpw', List.map_cons,
                List.map_nil, List.mem_singleton]
              exact hpl.symm
            · rw [hrest] at hb hp
              have hr0 : isWordChar r0 = false := by
                simpa [boundaryAfter] using hb
              rw [hp]
              have hshape : (pc :: pw) ++ r0 :: rs = pc :: (pw ++ r0 :: rs) := rfl
              rw [hshape]
              simp only [lowerRuns, runs_word_block hpc hpw' hr0, List.map_cons,
                List.mem_cons]
              exact Or.inl hpl.symm
        have step : replRun key exp false (c :: cs) =
            c :: replRun key exp (isWordChar c) cs := by
          cases hm : matchKey key (c :: cs) with
          | none => exact replRun_nomatch exp hm
          | some rest =>
            by_cases hb : boundaryAfter rest
            · exact (no_fit rest hm hb).elim
            · exact replRun_nobound exp hm (by simpa using hb)
        rw [step]
        by_cases hc : isWordChar c
        · obtain ⟨w, rest', hcs, hw, hrest⟩ := word_split cs
          rw [hc, hcs, replRun_word_seg key exp w rest' hw]
          rcases hrest with hnil | ⟨r0, rs, hrr, hr0⟩
          · subst hnil
            rw [replRun_nil]
          · subst hrr
            rw [replRun_cons_pw, hr0]
            have hrs : rs.length ≤ n := by
              have : cs.length = w.length + (rs.length + 1) := by
                rw [hcs]; simp
              omega
            have hocc' : key ∉ lowerRuns rs := by
              intro hmem
              apply hocc
              rw [hcs]
              simp only [lowerRuns, runs_word_block hc hw hr0, List.map_cons,
                List.mem_cons]
              exact Or.inr (by simpa [lowerRuns] using hmem)
            rw [ih rs hrs hocc']
        · have hc' : isWordChar c = false := by simpa using hc
          rw [hc']
          have hocc' : key ∉ lowerRuns cs := by
            intro hmem
            apply hocc
            simpa only [lowerRuns, wordRuns_cons_not hc'] using hmem
          rw [ih cs ht hocc']
  exact fun t => main t.length t le_rfl

/-! ## Folding the rule list -/

theorem replaceWord_lowerRuns_subset {key exp : List Char} (hk : key ≠ [])
    (t : List Char) : ∀ m ∈ lowerRuns (replaceWord key exp t),
      m ∈ lowerRuns t ∨ m ∈ lowerRuns exp := by
  intro m hm
  rw [replaceWord_eq] at hm
  simp only [lowerRuns, List.mem_map] at hm
  obtain ⟨r, hr, hrm⟩ := hm
  rcases replRun_runs_subset hk t r hr with h | h
  · exact Or.inl (by simpa only [lowerRuns, List.mem_map] using ⟨r, h, hrm⟩)
  · exact Or.inr (by simpa only [lowerRuns, List.mem_map] using ⟨r, h, hrm⟩)

theorem applyRules_cons (r0 : List Char × List Char)
    (rs : List (List Char × List Char)) (t : List Char) :
    applyRules (r0 :: rs) t = applyRules rs (replaceWord r0.1 r0.2 t) := rfl

theorem applyRules_preserve {k : List Char} :
    ∀ (rules : List (List Char × List Char)) (t : List Char),
      k ∉ lowerRuns t → (∀ r ∈ rules, r.1 ≠ [] ∧ k ∉ lowerRuns r.2) →
      k ∉ lowerRuns (applyRules rules t) := by
  intro rules
  induction rules with
  | nil => intro t ht _; exact ht
  | cons r0 rs ih =>
    intro t ht hcond
    have h0 := hcond r0 (List.mem_cons_self ..)
    have hstep : k ∉ lowerRuns (replaceWord r0.1 r0.2 t) := by
      intro hmem
      rcases replaceWord_lowerRuns_subset h0.1 t k hmem with h | h
      · exact ht h
      · exact h0.2 h
    rw [applyRules_cons]
    exact ih _ hstep fun r hr => hcond r (List.mem_cons_of_mem _ hr)

theorem applyRules_elim :
    ∀ (rules : List (List Char × List Char)) (t : List Char),
      (∀ r ∈ rules, r.1 ≠ []) →
      (∀ r ∈ rules, ∀ r' ∈ rules, r.1 ∉ lowerRuns r'.2) →
      ∀ r ∈ rules, r.1 ∉ lowerRuns (applyRules rules t) := by
  intro rules
  induction rules with
  | nil => intro t _ _ r hr; simp at hr
  | cons r0 rs ih =>
    intro t hne hcross r hr
    rw [applyRules_cons]
    rcases List.mem_cons.mp hr with rfl | hr'
    · have h1 : r.1 ∉ lowerRuns (replaceWord r.1 r.2 t) := by
        rw [replaceWord_eq]
        exact replRun_elim (hne r (List.mem_cons_self ..))
          (hcross r (List.mem_cons_self ..) r (List.mem_cons_self ..)) t
      exact applyRules_preserve rs _ h1 fun r' h' =>
        ⟨hne r' (List.mem_cons_of_mem _ h'),
         hcross r (List.mem_cons_self ..) r' (List.mem_cons_of_mem _ h')⟩
    · exact ih _ (fun r'' h'' => hne r'' (List.mem_cons_of_mem _ h''))
        (fun r'' h'' r3 h3 =>
          hcross r'' (List.mem_cons_of_mem _ h'') r3 (List.mem_cons_of_mem _ h3))
        r hr'

theorem applyRules_id :
    ∀ (rules : List (List Char × List Char)) (t : List Char),
      (∀ r ∈ rules, r.1 ≠ [] ∧ (∀ x ∈ r.1, isLowerAlpha x = true) ∧
        r.1 ∉ lowerRuns t) →
      applyRules rules t = t := by
  intro rules
  induction rules with
  | nil => intro t _; rfl
  | cons r0 rs ih =>
    intro t hcond
    have h0 := hcond r0 (List.mem_cons_self ..)
    have hstep : replaceWord r0.1 r0.2 t = t := by
      rw [replaceWord_eq]
      exact replRun_id r0.2 h0.1 h0.2.1 t h0.2.2
    rw [applyRules_cons, hstep]
    exact ih t fun r hr => hcond r (List.mem_cons_of_mem _ hr)

/-! ## Whitespace collapse and trim -/

theorem collapseWs_cons_nonspace {c : Char} (h : isSpaceChar c = false)
    (l : List Char) : collapseWs (c :: l) = c :: collapseWs l := by
  cases l with
  | nil => simp [collapseWs, h]
  | cons d cs => simp [collapseWs, h]

theorem collapseWs_append_nonspace {w : List Char}
    (hw : ∀ x ∈ w, isSpaceChar x = false) (l : List Char) :
    collapseWs (w ++ l) = w ++ collapseWs l := by
  induction w with
  | nil => rfl
  | cons x w' ih =>
    rw [List.cons_append, collapseWs_cons_nonspace (hw x (List.mem_cons_self ..)),
      ih fun y hy => hw y (List.mem_cons_of_mem _ hy)]
    rfl

theorem collapseWs_space_run : ∀ (rs : List Char) (r : Char),
    isSpaceChar r = true →
    collapseWs (r :: rs) = ' ' :: collapseWs (rs.dropWhile isSpaceChar) := by
  intro rs
  induction rs with
  | nil => intro r h; simp [collapseWs, h]
  | cons d ds ih =>
    intro r h
    by_cases hd : isSpaceChar d
    · rw [show collapseWs (r :: d :: ds) = collapseWs (d :: ds) from by
        simp [collapseWs, h, hd]]
      rw [ih d hd, List.dropWhile_cons_of_pos hd]
    · rw [show collapseWs (r :: d :: ds) = ' ' :: collapseWs (d :: ds) from by
        simp [collapseWs, h, hd]]
      rw [List.dropWhile_cons_of_neg hd]

/-- Collapsing whitespace preserves the word runs. -/
theorem wordRuns_collapseWs : ∀ l, wordRuns (collapseWs l) = wordRuns l := by
  have hsp : isWordChar ' ' = false := by decide
  have main : ∀ n (l : List Char), l.length ≤ n →
      wordRuns (collapseWs l) = wordRuns l := by
    intro n
    induction n with
    | zero =>
      intro l hl
      have : l = [] := List.length_eq_zero.mp (Nat.le_zero.mp hl)
      subst this
      rfl
    | succ n ih =>
      intro l hl
      cases l with
      | nil => rfl
      | cons c cs =>
        simp only [List.length_cons, Nat.add_le_add_iff_right] at hl
        by_cases hc : isSpaceChar c
        · rw [collapseWs_space_run cs c hc, wordRuns_cons_not hsp,
            ih _ (le_trans (List.dropWhile_sublist _).length_le hl),
            wordRuns_dropWhile_space, wordRuns_cons_not (space_not_word hc)]
        · have hc' : isSpaceChar c = false := by simpa using hc
          by_cases hw : isWordChar c
          · obtain ⟨w, rest', hcs, hwall, hrest⟩ := word_split cs
            have hwns : ∀ x ∈ (c :: w), isSpaceChar x = false := by
              intro x hx
              rcases List.mem_cons.mp hx with rfl | h
              · exact hc'
              · exact word_not_space (hwall x h)
            have hshape : c :: cs = (c :: w) ++ rest' := by rw [hcs]; rfl
            rw [hshape, collapseWs_append_nonspace hwns]
            rcases hrest with hnil | ⟨r0, rs, hrr, hr0⟩
            · subst hnil; rfl
            · subst hrr
              by_cases hr0s : isSpaceChar r0
              · rw [collapseWs_space_run rs r0 hr0s]
                have hblock1 : (c :: w) ++ ' ' ::
                    collapseWs (rs.dropWhile isSpaceChar) =
                    c :: (w ++ ' ' :: collapseWs (rs.dropWhile isSpaceChar)) := rfl
                have hblock2 : (c :: w) ++ r0 :: rs =
                    c :: (w ++ r0 :: rs) := rfl
                rw [hblock1, hblock2, runs_word_block hw hwall hsp,
                  runs_word_block hw hwall hr0]
                have hlen : (rs.dropWhile isSpaceChar).length ≤ n := by
                  have h1 : (rs.dropWhile isSpaceChar).length ≤ rs.length :=
                    (List.dropWhile_sublist _).length_le
                  have h2 : cs.length = w.length + (rs.length + 1) := by
                    rw [hcs]; simp
                  omega
                rw [ih _ hlen, wordRuns_dropWhile_space]
              · have hr0s' : isSpaceChar r0 = false := by simpa using hr0s
                rw [collapseWs_cons_nonspace hr0s']
                have hblock1 : (c :: w) ++ r0 :: collapseWs rs =
                    c :: (w ++ r0 :: collapseWs rs) := rfl
                have hblock2 : (c :: w) ++ r0 :: rs =
                    c :: (w ++ r0 :: rs) := rfl
                rw [hblock1, hblock2, runs_word_block hw hwall hr0,
                  runs_word_block hw hwall hr0]
                have hlen : rs.length ≤ n := by
                  have h2 : cs.length = w.length + (rs.length + 1) := by
                    rw [hcs]; simp
                  omega
                rw [ih _ hlen]
          · have hw' : isWordChar c = false := by simpa using hw
            rw [collapseWs_cons_nonspace hc', wordRuns_cons_not hw',
              wordRuns_cons_not hw', ih _ hl]
  exact fun l => main l.length l le_rfl

theorem trimRight_decomp : ∀ l : List Char,
    ∃ s, l = trimRight l ++ s ∧ ∀ c ∈ s, isSpaceChar c = true := by
  intro l
  induction l with
  | nil => exact ⟨[], rfl, by simp⟩
  | cons c cs ih =>
    obtain ⟨s, hs, hall⟩ := ih
    by_cases hc : (trimRight cs).isEmpty && isSpaceChar c
    · refine ⟨c :: cs, ?_, ?_⟩
      · rw [show trimRight (c :: cs) = [] from by simp [trimRight, hc]]
        rfl
      · intro x hx
        simp only [Bool.and_eq_true, List.isEmpty_iff] at hc
        rcases List.mem_cons.mp hx with rfl | h
        · exact hc.2
        · have : cs = s := by rw [hs, hc.1]; rfl
          exact hall x (this ▸ h)
    · refine ⟨s, ?_, hall⟩
      rw [show trimRight (c :: cs) = c :: trimRight cs from by
        simp only [trimRight]
        rw [if_neg hc]]
      rw [List.cons_append, ← hs]

theorem wordRuns_trimRight (l : List Char) :
    wordRuns (trimRight l) = wordRuns l := by
  obtain ⟨s, hs, hall⟩ := trimRight_decomp l
  conv_rhs => rw [hs]
  rw [wordRuns_append_spaces hall]

theorem wordRuns_trimLeft (l : List Char) :
    wordRuns (trimLeft l) = wordRuns l :=
  wordRuns_dropWhile_space l

theorem wordRuns_normalizeText (t : List Char) :
    wordRuns (normalizeText t) = wordRuns (applyRules NORMALIZATION_MAP t) := by
  unfold normalizeText trimStr
  rw [wordRuns_trimRight, wordRuns_trimLeft, wordRuns_collapseWs]

theorem collapseWs_spacesBlank : ∀ l, spacesBlank (collapseWs l) = true := by
  intro l
  induction l with
  | nil => rfl
  | cons c cs ih =>
    cases cs with
    | nil =>
      by_cases hc : isSpaceChar c <;> simp [collapseWs, hc, spacesBlank]
    | cons d ds =>
      by_cases hcd : isSpaceChar c && isSpaceChar d
      · rw [show collapseWs (c :: d :: ds) = collapseWs (d :: ds) from by
          simp [collapseWs, hcd]]
        exact ih
      · rw [show collapseWs (c :: d :: ds) =
            (if isSpaceChar c then ' ' else c) :: collapseWs (d :: ds) from by
          simp only [collapseWs]
          rw [if_neg hcd]]
        simp only [spacesBlank, List.all_cons, Bool.and_eq_true]
        refine ⟨?_, ih⟩
        by_cases hc : isSpaceChar c <;> simp [hc]

theorem collapseWs_noDouble : ∀ l, noDoubleSpace (collapseWs l) = true := by
  intro l
  induction l with
  | nil => rfl
  | cons c cs ih =>
    cases cs with
    | nil => by_cases hc : isSpaceChar c <;> simp [collapseWs, hc, noDoubleSpace]
    | cons d ds =>
      by_cases hcd : isSpaceChar c && isSpaceChar d
      · rw [show collapseWs (c :: d :: ds) = collapseWs (d :: ds) from by
          simp [collapseWs, hcd]]
        exact ih
      · rw [show collapseWs (c :: d :: ds) =
            (if isSpaceChar c then ' ' else c) :: collapseWs (d :: ds) from by
          simp only [collapseWs]
          rw [if_neg hcd]]
        by_cases hc : isSpaceChar c
        · have hd : isSpaceChar d = false := by
            rcases Bool.and_eq_false_iff.mp (by simpa using hcd) with h | h
            · exact absurd hc (by simp [h])
            · exact h
          rw [if_pos hc, collapseWs_cons_nonspace hd]
          simp only [noDoubleSpace, hd, Bool.and_false, Bool.not_false,
            Bool.true_and]
          rw [collapseWs_cons_nonspace hd] at ih
          exact ih
        · rw [if_neg hc]
          cases hX : collapseWs (d :: ds) with
          | nil => rfl
          | cons y ys =>
            simp only [noDoubleSpace, Bool.and_eq_true]
            constructor
            · simp [Bool.eq_false_iff.mpr hc]
            · rw [← hX]; exact ih

theorem collapseWs_eq_self : ∀ l, noDoubleSpace l = true → spacesBlank l = true →
    collapseWs l = l := by
  intro l
  induction l with
  | nil => intro _ _; rfl
  | cons c cs ih =>
    intro h1 h2
    cases cs with
    | nil =>
      by_cases hc : isSpaceChar c
      · have : c = ' ' := by
          simp only [spacesBlank, List.all_cons, List.all_nil, Bool.and_true,
            Bool.or_eq_true, Bool.not_eq_true', beq_iff_eq] at h2
          rcases h2 with h | h
          · exact absurd hc (by simp [h])
          · exact h
        simp [collapseWs, hc, this]
      · simp [collapseWs, hc]
    | cons d ds =>
      have hnd : (isSpaceChar c && isSpaceChar d) = false := by
        simp only [noDoubleSpace, Bool.and_eq_true, Bool.not_eq_true'] at h1
        exact h1.1
      rw [show collapseWs (c :: d :: ds) =
          (if isSpaceChar c then ' ' else c) :: collapseWs (d :: ds) from by
        simp only [collapseWs]
        rw [if_neg (by simp [hnd])]]
      have htail : collapseWs (d :: ds) = d :: ds := by
        apply ih
        · simp only [noDoubleSpace, Bool.and_eq_true] at h1
          exact h1.2
        · simp only [spacesBlank, List.all_cons, Bool.and_eq_true] at h2
          simp only [spacesBlank, List.all_cons, Bool.and_eq_true]
          exact h2.2
      rw [htail]
      by_cases hc : isSpaceChar c
      · have : c = ' ' := by
          simp only [spacesBlank, List.all_cons, Bool.and_eq_true,
            Bool.or_eq_true, Bool.not_eq_true', beq_iff_eq] at h2
          rcases h2.1 with h | h
          · exact absurd hc (by simp [h])
          · exact h
        rw [if_pos hc, this]
      · rw [if_neg hc]

theorem noDouble_tail {x : Char} {y : List Char}
    (h : noDoubleSpace (x :: y) = true) : noDoubleSpace y = true := by
  cases y with
  | nil => rfl
  | cons z zs =>
    simp only [noDoubleSpace, Bool.and_eq_true] at h
    exact h.2

theorem noDouble_suffix : ∀ (a b : List Char),
    noDoubleSpace (a ++ b) = true → noDoubleSpace b = true := by
  intro a
  induction a with
  | nil => intro b h; exact h
  | cons x a' ih => intro b h; exact ih b (noDouble_tail h)

theorem noDouble_front : ∀ (a b : List Char),
    noDoubleSpace (a ++ b) = true → noDoubleSpace a = true := by
  intro a
  induction a with
  | nil => intro b _; rfl
  | cons x a' ih =>
    intro b h
    cases a' with
    | nil => rfl
    | cons y a'' =>
      simp only [List.cons_append, noDoubleSpace, Bool.and_eq_true] at h ⊢
      exact ⟨h.1, by
        have := ih b h.2
        simpa using this⟩

theorem spacesBlank_suffix {a b : List Char}
    (h : spacesBlank (a ++ b) = true) : spacesBlank b = true := by
  simp only [spacesBlank, List.all_append, Bool.and_eq_true] at h
  exact h.2

theorem spacesBlank_front {a b : List Char}
    (h : spacesBlank (a ++ b) = true) : spacesBlank a = true := by
  simp only [spacesBlank, List.all_append, Bool.and_eq_true] at h
  exact h.1

theorem trimRight_idem : ∀ l : List Char, trimRight (trimRight l) = trimRight l := by
  intro l
  induction l with
  | nil => rfl
  | cons c cs ih =>
    by_cases hc : (trimRight cs).isEmpty && isSpaceChar c
    · rw [show trimRight (c :: cs) = [] from by simp [trimRight, hc]]
      rfl
    · rw [show trimRight (c :: cs) = c :: trimRight cs from by
        simp only [trimRight]; rw [if_neg hc]]
      rw [show trimRight (c :: trimRight cs) = c :: trimRight (trimRight cs) from by
        simp only [trimRight]
        rw [if_neg (by rw [ih]; exact hc)]]
      rw [ih]

theorem dropWhile_self_head {p : Char → Bool} {c : Char} {t : List Char}
    (h : List.dropWhile p (c :: t) = c :: t) : p c = false := by
  by_cases hp : p c
  · rw [List.dropWhile_cons_of_pos hp] at h
    have h1 := congrArg List.length h
    have h2 : (List.dropWhile p t).length ≤ t.length :=
      (List.dropWhile_sublist _).length_le
    simp only [List.length_cons] at h1
    omega
  · simpa using hp

theorem trimLeft_trimRight {l : List Char} (h : trimLeft l = l) :
    trimLeft (trimRight l) = trimRight l := by
  cases ht : trimRight l with
  | nil => rfl
  | cons c z =>
    obtain ⟨s, hs, _⟩ := trimRight_decomp l
    rw [ht] at hs
    have hc : isSpaceChar c = false := by
      have hl : l = c :: (z ++ s) := by rw [hs]; rfl
      have h2 : List.dropWhile isSpaceChar (c :: (z ++ s)) = c :: (z ++ s) := by
        rw [← hl]; exact h
      exact dropWhile_self_head h2
    unfold trimLeft
    rw [List.dropWhile_cons_of_neg (by simp [hc])]

/-! ## Idempotence of `normalizeText` -/

/-- Every key of the fixed map is a nonempty lower-case-ASCII word. -/
theorem map_keys_ok : ∀ r ∈ NORMALIZATION_MAP,
    r.1 ≠ [] ∧ ∀ x ∈ r.1, isLowerAlpha x = true := by decide

/-- The precondition of the idempotence claim, checked on the fixed map: no
expansion contains any key as a whole word. -/
theorem map_no_cross : ∀ r ∈ NORMALIZATION_MAP, ∀ r' ∈ NORMALIZATION_MAP,
    r.1 ∉ lowerRuns r'.2 := by decide

theorem normalizeText_no_keys (t : List Char) :
    ∀ r ∈ NORMALIZATION_MAP, r.1 ∉ lowerRuns (normalizeText t) := by
  intro r hr hmem
  apply applyRules_elim NORMALIZATION_MAP t
    (fun r' h' => (map_keys_ok r' h').1) map_no_cross r hr
  have heq : lowerRuns (normalizeText t) =
      lowerRuns (applyRules NORMALIZATION_MAP t) := by
    unfold lowerRuns
    rw [wordRuns_normalizeText]
  rwa [heq] at hmem

/-- The output of `normalizeText` has collapsed, trimmed whitespace. -/
theorem normalizeText_tidy (t : List Char) :
    noDoubleSpace (normalizeText t) = true ∧
      spacesBlank (normalizeText t) = true ∧
      trimLeft (normalizeText t) = normalizeText t ∧
      trimRight (normalizeText t) = normalizeText t := by
  have hu : normalizeText t =
      trimRight (trimLeft (collapseWs (applyRules NORMALIZATION_MAP t))) := rfl
  generalize hgen : collapseWs (applyRules NORMALIZATION_MAP t) = u at hu
  have hnd : noDoubleSpace u = true := hgen ▸ collapseWs_noDouble _
  have hbl : spacesBlank u = true := hgen ▸ collapseWs_spacesBlank _
  have hsplit : u.takeWhile isSpaceChar ++ u.dropWhile isSpaceChar = u :=
    List.takeWhile_append_dropWhile ..
  have hndl : noDoubleSpace (trimLeft u) = true :=
    noDouble_suffix (u.takeWhile isSpaceChar) (u.dropWhile isSpaceChar)
      (by rw [hsplit]; exact hnd)
  have hbll : spacesBlank (trimLeft u) = true := by
    have h3 : spacesBlank
        (u.takeWhile isSpaceChar ++ u.dropWhile isSpaceChar) = true := by
      rw [hsplit]; exact hbl
    exact spacesBlank_suffix h3
  obtain ⟨s, hs, _⟩ := trimRight_decomp (trimLeft u)
  refine ⟨?_, ?_, ?_, ?_⟩
  · rw [hu]
    exact noDouble_front _ s (hs ▸ hndl)
  · rw [hu]
    have h4 : spacesBlank (trimRight (trimLeft u) ++ s) = true := by
      rw [← hs]; exact hbll
    exact spacesBlank_front h4
  · rw [hu]
    exact trimLeft_trimRight
      (show trimLeft (trimLeft u) = trimLeft u from
        List.dropWhile_idempotent _ _)
  · rw [hu]
    exact trimRight_idem _

/-- Idempotence of the normalizer on every input string. -/
theorem normalizeText_idempotent (t : List Char) :
    normalizeText (normalizeText t) = normalizeText t := by
  have hid : applyRules NORMALIZATION_MAP (normalizeText t) = normalizeText t :=
    applyRules_id _ _ fun r hr =>
      ⟨(map_keys_ok r hr).1, (map_keys_ok r hr).2, normalizeText_no_keys t r hr⟩
  obtain ⟨hnd, hbl, htl, htr⟩ := normalizeText_tidy t
  show trimStr (collapseWs (applyRules NORMALIZATION_MAP (normalizeText t))) = _
  rw [hid, collapseWs_eq_self _ hnd hbl]
  unfold trimStr
  rw [htl, htr]

/-! ## Characterizing `extractAdminTimes` -/

theorem contains_eq_false_of_not_mem {l : List (List Char)} {a : List Char}
    (h : a ∉ l) : l.contains a = false := by
  have he : l.contains a = l.elem a := rfl
  rw [he, List.elem_eq_mem]
  simp [h]

theorem foldl_dedup_filter (P : List Char → Bool) :
    ∀ (l : List (List Char)) (acc : List (List Char)),
      l.Nodup → (∀ x ∈ l, x ∉ acc) →
      l.foldl (fun found time =>
        if P time && !found.contains time then found ++ [time] else found) acc =
      acc ++ l.filter P := by
  intro l
  induction l with
  | nil => intro acc _ _; simp
  | cons time rest ih =>
    intro acc hnd hdisj
    have hna : time ∉ acc := hdisj time (List.mem_cons_self ..)
    have hcon : acc.contains time = false := contains_eq_false_of_not_mem hna
    simp only [List.foldl_cons]
    by_cases hp : P time
    · have hdisj' : ∀ x ∈ rest, x ∉ acc ++ [time] := by
        intro x hx
        simp only [List.mem_append, List.mem_singleton]
        rintro (h1 | rfl)
        · exact hdisj x (List.mem_cons_of_mem _ hx) h1
        · exact (List.nodup_cons.mp hnd).1 hx
      rw [if_pos (by simp [hp, hcon, hna])]
      rw [ih (acc ++ [time]) (List.Nodup.of_cons hnd) hdisj']
      rw [show List.filter P (time :: rest) = time :: List.filter P rest from by
        simp [List.filter_cons, hp]]
      simp only [List.append_assoc, List.singleton_append]
    · rw [if_neg (by simp [hp])]
      rw [ih acc (List.Nodup.of_cons hnd)
        fun x hx => hdisj x (List.mem_cons_of_mem _ hx)]
      simp [List.filter_cons, hp]

/-- `extractAdminTimes` returns exactly the detected phrases of the fixed
list, in definition order. -/
theorem extractAdminTimes_eq_filter (text : List Char) :
    extractAdminTimes text =
      ADMIN_TIMES.filter fun time =>
        containsSub (toLowerL text) (toLowerL time) := by
  have h := foldl_dedup_filter
    (fun time => containsSub (toLowerL text) (toLowerL time)) ADMIN_TIMES []
    (by decide) (by simp)
  simpa [extractAdminTimes] using h

/-- The OCR step only ever invokes the two OCR variants. -/
theorem ocrStep_trace_no_gemini (env : Env) (bh : Behaviors)
    (base64 mime : List Char) : ExtCall.gemini ∉ (ocrStep env bh base64 mime).2 := by
  unfold ocrStep
  by_cases hp : resolvedProvider env = "google".data
  · rw [if_pos hp]
    cases extractTextWithGoogleVision env bh.vision base64 mime with
    | ok t => simp
    | error e =>
      cases extractTextWithOpenAI env bh.openai base64 mime with
      | ok t => simp
      | error e2 => simp
  · rw [if_neg hp]
    cases extractTextWithOpenAI env bh.openai base64 mime with
    | ok t => simp
    | error e =>
      cases extractTextWithGoogleVision env bh.vision base64 mime with
      | ok t => simp
      | error e2 => simp

/-! ## Claim theorems -/

/-- C4: `normalizeText` is idempotent: for every input string `T`,
`normalizeText (normalizeText T) = normalizeText T`.  The claim's
precondition — no expansion of the fixed `NORMALIZATION_MAP` contains any
abbreviation key as a whole word — holds (theorem `map_no_cross`), so
idempotence is proved unconditionally for the fixed map. -/
theorem claim_C4 : ∀ t : List Char,
    normalizeText (normalizeText t) = normalizeText t :=
  normalizeText_idempotent

/-- C7: `normalizeText` is total (a function on all of `List Char` by
construction), maps `""` to `""`, maps `"Take 1 tab qhs po"` to
`"Take 1 tablet at bedtime by mouth"` (which contains "tablet",
"at bedtime", "by mouth" in the original token order), and for every input
its output has every whitespace run collapsed to a single plain space with
no leading or trailing whitespace. -/
theorem claim_C7 :
    normalizeText [] = [] ∧
    normalizeText "Take 1 tab qhs po".data =
      "Take 1 tablet at bedtime by mouth".data ∧
    ∀ t : List Char,
      noDoubleSpace (normalizeText t) = true ∧
      spacesBlank (normalizeText t) = true ∧
      trimLeft (normalizeText t) = normalizeText t ∧
      trimRight (normalizeText t) = normalizeText t :=
  ⟨rfl, by decide, normalizeText_tidy⟩

/-- C8: `extractAdminTimes` returns exactly the phrases of `ADMIN_TIMES`
contained case-insensitively in the input, in list-definition order and in
original casing (that is the filter of `ADMIN_TIMES`, which is duplicate-free
by construction); on `"twice daily and at bedtime"` it returns
`["at bedtime", "twice daily"]`, and on `""` it returns `[]`. -/
theorem claim_C8 :
    (∀ text : List Char, extractAdminTimes text =
      ADMIN_TIMES.filter fun time =>
        containsSub (toLowerL text) (toLowerL time)) ∧
    extractAdminTimes "twice daily and at bedtime".data =
      ["at bedtime".data, "twice daily".data] ∧
    extractAdminTimes [] = [] :=
  ⟨extractAdminTimes_eq_filter, by decide, by decide⟩

/-- C10: for every input, every element of `extractAdminTimes`'s result is a
member of the fixed 11-element `ADMIN_TIMES` list, the elements are pairwise
distinct, and the length is at most 11. -/
theorem claim_C10 : ∀ text : List Char,
    (∀ p ∈ extractAdminTimes text, p ∈ ADMIN_TIMES) ∧
    (extractAdminTimes text).Nodup ∧
    (extractAdminTimes text).length ≤ 11 := by
  intro text
  rw [extractAdminTimes_eq_filter]
  refine ⟨fun p hp => List.mem_of_mem_filter hp,
    List.Nodup.filter _ (by decide), ?_⟩
  have h := List.length_filter_le
    (fun time => containsSub (toLowerL text) (toLowerL time)) ADMIN_TIMES
  have h11 : ADMIN_TIMES.length = 11 := by decide
  omega

/-- C10 witness at a concrete input with a repeated phrase. -/
theorem claim_C10_witness :
    "at bedtime".data ∈ ADMIN_TIMES ∧
    (extractAdminTimes "at bedtime and at bedtime".data).Nodup ∧
    (extractAdminTimes "at bedtime and at bedtime".data).length ≤ 11 := by
  have h := claim_C10 "at bedtime and at bedtime".data
  exact ⟨h.1 "at bedtime".data (by decide), h.2.1, h.2.2⟩

/-- C1 counterexample: with no configured Gemini credential the credential
check at the top of `extractMedicationInfoWithGemini` sits before the
`try`, so the failure is thrown to the caller (`Except.error`) instead of
being absorbed into a degraded record — refuting "never propagates a
failure ... including a missing configured credential". -/
theorem claim_C1_counterexample :
    extractMedicationInfoWithGemini ⟨none, none, none, none⟩ .parseFail
      "Take 1 tab qhs po".data =
      .error ("Gemini API key not configured. " ++
        "Please set GEMINI_KEY in your environment variables.").data := by
  decide

/-- C1 (amended): when the Gemini credential is configured,
`extractMedicationInfoWithGemini` never propagates a failure: it resolves
with some record for every behaviour, and with the degraded record for every
failure behaviour (network error, non-success response, parse error).  A
missing credential, by contrast, throws (see the counterexample). -/
theorem claim_C1 : ∀ (env : Env) (b : GeminiBehavior) (rawText : List Char),
    env.geminiKey.isSome = true →
    (∃ rec, extractMedicationInfoWithGemini env b rawText = .ok rec) ∧
    (b.isFailure = true →
      extractMedicationInfoWithGemini env b rawText =
        .ok (degradedRecord rawText)) := by
  intro env b t h
  obtain ⟨k, hk⟩ := Option.isSome_iff_exists.mp h
  constructor
  · cases b with
    | netErr m =>
      exact ⟨degradedRecord t, by simp [extractMedicationInfoWithGemini, hk]⟩
    | httpErr s bo =>
      exact ⟨degradedRecord t, by simp [extractMedicationInfoWithGemini, hk]⟩
    | parseFail =>
      exact ⟨degradedRecord t, by simp [extractMedicationInfoWithGemini, hk]⟩
    | parsed info =>
      exact ⟨{ medicineName := info.medicineName.getD "Not specified".data
               medicineType := info.medicineType.getD "Not specified".data
               quantity := info.quantity.getD "Not specified".data
               frequency := info.frequency.getD "Not specified".data
               takingMethod := info.takingMethod.getD "Not specified".data
               adminTimes := info.adminTimes.getD []
               fullText := info.fullText.getD (normalizeText t) },
        by simp [extractMedicationInfoWithGemini, hk]⟩
  · intro hf
    cases b with
    | netErr m => simp [extractMedicationInfoWithGemini, hk]
    | httpErr s bo => simp [extractMedicationInfoWithGemini, hk]
    | parseFail => simp [extractMedicationInfoWithGemini, hk]
    | parsed info => exact absurd hf (by simp [GeminiBehavior.isFailure])

set_option maxRecDepth 8000 in
/-- C1 witness: a concrete network failure with the credential set yields the
degraded record, fully evaluated. -/
theorem claim_C1_witness :
    extractMedicationInfoWithGemini ⟨some "k".data, none, none, none⟩
      (.netErr "boom".data) "Take 1 tab qhs po".data = .ok
      { medicineName := "Extraction failed".data
        medicineType := "Not specified".data
        quantity := "Not specified".data
        frequency := "Not specified".data
        takingMethod := "Not specified".data
        adminTimes := ["at bedtime".data]
        fullText := "Take 1 tablet at bedtime by mouth".data } := by
  have h := (claim_C1 ⟨some "k".data, none, none, none⟩ (.netErr "boom".data)
    "Take 1 tab qhs po".data (by decide)).2 (by decide)
  rw [h]
  decide

/-- C3: a payload that fails JSON parsing yields the degraded record:
`medicineName = "Extraction failed"`, the other scalars `"Not specified"`,
`fullText = normalizeText rawText` and
`adminTimes = extractAdminTimes (normalizeText rawText)`. -/
theorem claim_C3 : ∀ (env : Env) (rawText : List Char),
    env.geminiKey.isSome = true →
    extractMedicationInfoWithGemini env .parseFail rawText = .ok
      { medicineName := "Extraction failed".data
        medicineType := "Not specified".data
        quantity := "Not specified".data
        frequency := "Not specified".data
        takingMethod := "Not specified".data
        adminTimes := extractAdminTimes (normalizeText rawText)
        fullText := normalizeText rawText } := by
  intro env t h
  obtain ⟨k, hk⟩ := Option.isSome_iff_exists.mp h
  simp [extractMedicationInfoWithGemini, hk, degradedRecord]

set_option maxRecDepth 8000 in
/-- C3 witness at a concrete prescription text. -/
theorem claim_C3_witness :
    extractMedicationInfoWithGemini ⟨some "k".data, none, none, none⟩
      .parseFail "Metformin 500 mg tab qhs".data = .ok
      { medicineName := "Extraction failed".data
        medicineType := "Not specified".data
        quantity := "Not specified".data
        frequency := "Not specified".data
        takingMethod := "Not specified".data
        adminTimes := ["at bedtime".data]
        fullText := "Metformin 500 mg tablet at bedtime".data } := by
  have h := claim_C3 ⟨some "k".data, none, none, none⟩
    "Metformin 500 mg tab qhs".data (by decide)
  rw [h]
  decide

/-- C2: if the primary OCR variant fails and the secondary succeeds with `t`,
the OCR step yields `t` with each variant attempted once and the primary's
error discarded; if both fail, the single surfaced error embeds the
primary variant's message `e1` (not the fallback's), again with exactly one
fallback attempt. -/
theorem claim_C2 : ∀ (env : Env) (bh : Behaviors) (b64 mt e1 t : List Char),
    (resolvedProvider env = "google".data →
      extractTextWithGoogleVision env bh.vision b64 mt = .error e1 →
      (extractTextWithOpenAI env bh.openai b64 mt = .ok t →
        ocrStep env bh b64 mt = (.ok t, [.vision, .openai])) ∧
      ∀ e2, extractTextWithOpenAI env bh.openai b64 mt = .error e2 →
        ocrStep env bh b64 mt =
          (.error (("OCR extraction failed. Please check your API keys " ++
            "and try again. Error: ").data ++ e1), [.vision, .openai])) ∧
    (resolvedProvider env ≠ "google".data →
      extractTextWithOpenAI env bh.openai b64 mt = .error e1 →
      (extractTextWithGoogleVision env bh.vision b64 mt = .ok t →
        ocrStep env bh b64 mt = (.ok t, [.openai, .vision])) ∧
      ∀ e2, extractTextWithGoogleVision env bh.vision b64 mt = .error e2 →
        ocrStep env bh b64 mt =
          (.error (("OCR extraction failed. Please check your API keys " ++
            "and try again. Error: ").data ++ e1), [.openai, .vision])) := by
  intro env bh b64 mt e1 t
  constructor
  · intro hp h1
    constructor
    · intro h2
      unfold ocrStep
      rw [if_pos hp, h1, h2]
    · intro e2 h2
      unfold ocrStep
      rw [if_pos hp, h1, h2]
  · intro hp h1
    constructor
    · intro h2
      unfold ocrStep
      rw [if_neg hp, h1, h2]
    · intro e2 h2
      unfold ocrStep
      rw [if_neg hp, h1, h2]

/-- C2 witness: Google primary fails with an HTTP error, the OpenAI fallback
fails for want of a credential; the single aggregated error names the
primary's message. -/
theorem claim_C2_witness :
    ocrStep ⟨none, some "g".data, none, none⟩
      ⟨.httpErr "500".data "oops".data, .text "t".data, .parseFail⟩
      "b".data "image/png".data =
      (.error ("OCR extraction failed. Please check your API keys " ++
        "and try again. Error: Google Vision API error: 500 oops").data,
       [.vision, .openai]) := by
  have h := ((claim_C2 ⟨none, some "g".data, none, none⟩
    ⟨.httpErr "500".data "oops".data, .text "t".data, .parseFail⟩
    "b".data "image/png".data
    "Google Vision API error: 500 oops".data [] ).1 (by decide) (by decide)).2
    ("OpenAI API key not configured. " ++
      "Please set OPENAI_API_KEY in your environment variables.").data
    (by decide)
  rw [h]
  decide

/-- C5 counterexample: the primary (Google) variant succeeds with an *empty*
text (annotations present, empty description); no fallback to the available
OpenAI variant is attempted — the trace is `[.vision]` only — and the
pipeline reports the no-text error.  This refutes "an empty text result from
the primary variant triggers the one fallback attempt". -/
theorem claim_C5_counterexample :
    ocrStep ⟨none, some "g".data, some "o".data, none⟩
      ⟨.annotated (some []), .text "t".data, .parseFail⟩
      "b".data "image/png".data = (.ok [], [.vision]) ∧
    extractPrescription ⟨none, some "g".data, some "o".data, none⟩
      ⟨.annotated (some []), .text "t".data, .parseFail⟩
      (some ⟨"image/png".data, "b".data⟩) =
      (.error ("No text could be extracted from the image. " ++
        "Please ensure the image contains readable text.").data, [.vision]) := by
  constructor
  · decide
  · decide

/-- C5 (amended): with Google as primary, every *thrown* failure of the
primary — missing credential, network error, non-success response, or
annotation-less response — triggers exactly one fallback attempt to the
other variant, and those conditions all throw; a successful (even empty)
text result triggers no fallback.  Symmetrically for OpenAI primary. -/
theorem claim_C5 : ∀ (env : Env) (bh : Behaviors) (b64 mt : List Char),
    (resolvedProvider env = "google".data →
      ((∀ e, extractTextWithGoogleVision env bh.vision b64 mt = .error e →
          (ocrStep env bh b64 mt).2 = [.vision, .openai]) ∧
       (∀ t, extractTextWithGoogleVision env bh.vision b64 mt = .ok t →
          (ocrStep env bh b64 mt).2 = [.vision]) ∧
       ((env.googleVisionApiKey = none ∨ (∃ m, bh.vision = .netErr m) ∨
          (∃ s bo, bh.vision = .httpErr s bo) ∨ bh.vision = .noAnnotations) →
          ∃ e, extractTextWithGoogleVision env bh.vision b64 mt = .error e))) ∧
    (resolvedProvider env ≠ "google".data →
      ((∀ e, extractTextWithOpenAI env bh.openai b64 mt = .error e →
          (ocrStep env bh b64 mt).2 = [.openai, .vision]) ∧
       (∀ t, extractTextWithOpenAI env bh.openai b64 mt = .ok t →
          (ocrStep env bh b64 mt).2 = [.openai]))) := by
  intro env bh b64 mt
  constructor
  · intro hp
    refine ⟨?_, ?_, ?_⟩
    · intro e he
      unfold ocrStep
      rw [if_pos hp, he]
      cases extractTextWithOpenAI env bh.openai b64 mt with
      | ok t2 => rfl
      | error e2 => rfl
    · intro t2 ht
      unfold ocrStep
      rw [if_pos hp, ht]
    · intro hfail
      cases hkey : env.googleVisionApiKey with
      | none =>
        exact ⟨("Google Vision API key not configured. " ++
          "Please set GOOGLE_VISION_API_KEY in your environment variables.").data,
          by simp [extractTextWithGoogleVision, hkey]⟩
      | some k =>
        rcases hfail with h0 | ⟨m, hb⟩ | ⟨s, bo, hb⟩ | hb
        · exact absurd hkey (by simp [h0])
        · exact ⟨m, by simp [extractTextWithGoogleVision, hkey, hb]⟩
        · exact ⟨"Google Vision API error: ".data ++ s ++ " ".data ++ bo,
            by simp [extractTextWithGoogleVision, hkey, hb]⟩
        · exact ⟨"No text found in the image".data,
            by simp [extractTextWithGoogleVision, hkey, hb]⟩
  · intro hp
    constructor
    · intro e he
      unfold ocrStep
      rw [if_neg hp, he]
      cases extractTextWithGoogleVision env bh.vision b64 mt with
      | ok t2 => rfl
      | error e2 => rfl
    · intro t2 ht
      unfold ocrStep
      rw [if_neg hp, ht]

/-- C5 witness: an annotation-less Google response (a thrown "No text found"
failure) makes the step fall back to OpenAI exactly once. -/
theorem claim_C5_witness :
    (ocrStep ⟨none, some "g".data, none, none⟩
      ⟨.noAnnotations, .text "t".data, .parseFail⟩ "b".data "m".data).2 =
      [.vision, .openai] := by
  exact ((claim_C5 ⟨none, some "g".data, none, none⟩
    ⟨.noAnnotations, .text "t".data, .parseFail⟩ "b".data "m".data).1
    (by decide)).1 "No text found in the image".data (by decide)

/-- C6: the guards short-circuit in order: a non-image MIME type yields the
validation error with an empty collaborator trace (no network call), and an
OCR result that trims to empty yields the distinct no-text error with
`StructuredExtractor` (Gemini) never invoked. -/
theorem claim_C6 : ∀ (env : Env) (bh : Behaviors) (file : FileData),
    (isPrefixL "image/".data file.type = false →
      extractPrescription env bh (some file) =
        (.error "Please upload a valid image file (PNG, JPG, JPEG)".data, [])) ∧
    (∀ t tr, isPrefixL "image/".data file.type = true →
      ocrStep env bh file.base64 file.type = (.ok t, tr) →
      (trimStr t).isEmpty = true →
      extractPrescription env bh (some file) =
        (.error ("No text could be extracted from the image. " ++
          "Please ensure the image contains readable text.").data, tr) ∧
      ExtCall.gemini ∉ tr) := by
  intro env bh file
  constructor
  · intro h
    simp [extractPrescription, extractPrescriptionBody, h]
  · intro t tr hmime horc htrim
    constructor
    · simp [extractPrescription, extractPrescriptionBody, hmime, horc, htrim]
    · have h := ocrStep_trace_no_gemini env bh file.base64 file.type
      rw [horc] at h
      exact h

/-- C6 witness: a `text/plain` upload is rejected with no collaborator
invoked, and a whitespace-only OCR result stops before Gemini. -/
theorem claim_C6_witness :
    extractPrescription ⟨some "k".data, some "g".data, none, none⟩
      ⟨.noAnnotations, .text "t".data, .parseFail⟩
      (some ⟨"text/plain".data, "b".data⟩) =
      (.error "Please upload a valid image file (PNG, JPG, JPEG)".data, []) ∧
    (extractPrescription ⟨some "k".data, some "g".data, none, none⟩
      ⟨.annotated (some "   ".data), .text "t".data, .parseFail⟩
      (some ⟨"image/png".data, "b".data⟩) =
      (.error ("No text could be extracted from the image. " ++
        "Please ensure the image contains readable text.").data, [.vision]) ∧
      ExtCall.gemini ∉ [ExtCall.vision]) := by
  constructor
  · exact (claim_C6 ⟨some "k".data, some "g".data, none, none⟩
      ⟨.noAnnotations, .text "t".data, .parseFail⟩
      ⟨"text/plain".data, "b".data⟩).1 (by decide)
  · exact (claim_C6 ⟨some "k".data, some "g".data, none, none⟩
      ⟨.annotated (some "   ".data), .text "t".data, .parseFail⟩
      ⟨"image/png".data, "b".data⟩).2 "   ".data [.vision]
      (by decide) (by decide) (by decide)

/-- C9: `extractPrescription` is total at the outermost boundary: for every
environment, collaborator behaviour and input it returns a `{data}` or
`{error}` value, and any exception escaping the body is converted to the
generic retry-suggesting message. -/
theorem claim_C9 : ∀ (env : Env) (bh : Behaviors) (file? : Option FileData),
    ((∃ d tr, extractPrescription env bh file? = (.data d, tr)) ∨
     (∃ m tr, extractPrescription env bh file? = (.error m, tr))) ∧
    ∀ e tr, extractPrescriptionBody env bh file? = (.error e, tr) →
      extractPrescription env bh file? =
        (.error ("An unexpected error occurred while processing the image. " ++
          "Please try again.").data, tr) := by
  intro env bh f
  constructor
  · rcases h : extractPrescriptionBody env bh f with ⟨r, tr⟩
    cases r with
    | ok pr =>
      cases pr with
      | data d => exact Or.inl ⟨d, tr, by simp [extractPrescription, h]⟩
      | error m => exact Or.inr ⟨m, tr, by simp [extractPrescription, h]⟩
    | error e =>
      exact Or.inr ⟨("An unexpected error occurred while processing " ++
        "the image. Please try again.").data, tr,
        by simp [extractPrescription, h]⟩
  · intro e tr h
    simp [extractPrescription, h]

/-- C9 witness: Gemini's missing credential throws inside the body after the
OCR call; the outermost handler converts it to the generic message. -/
theorem claim_C9_witness :
    extractPrescription ⟨none, some "g".data, none, none⟩
      ⟨.annotated (some "Take 1 tab".data), .text "t".data, .parseFail⟩
      (some ⟨"image/png".data, "b".data⟩) =
      (.error ("An unexpected error occurred while processing the image. " ++
        "Please try again.").data, [.vision, .gemini]) := by
  exact (claim_C9 ⟨none, some "g".data, none, none⟩
    ⟨.annotated (some "Take 1 tab".data), .text "t".data, .parseFail⟩
    (some ⟨"image/png".data, "b".data⟩)).2
    ("Gemini API key not configured. " ++
      "Please set GEMINI_KEY in your environment variables.").data
    [.vision, .gemini] (by decide)

end Pharmacy
